import Mathlib

/-!
Verification of the corefile module (`pwnlib/elf/corefile.py`).

The file shallowly embeds the module's core: the `iter_notes` iterator over
ELF note records, the `Mapping` record, the note dispatch performed by
`Core.__init__`, and the parsers `Core._parse_nt_file`, `Core._parse_auxv`,
`Core._parse_stack` together with the lookup `Core.getenv`.

Modelling conventions:
* Byte streams and memory contents are `List Nat` / association lists of
  `Nat`; machine words are decoded little-endian (the module runs with the
  pwntools `context` endianness of the dump; the supported targets i386 and
  amd64 are little-endian).
* Python exceptions are modelled by the `Except PyErr` monad.  A caught
  exception corresponds to a `match` on the inner result; an uncaught one
  propagates as `.error`.
* Loops are written with an explicit fuel argument chosen large enough that,
  for the word sizes the module actually runs with (`context.bytes` is 4 or
  8), fuel exhaustion is unreachable; the fuel-exhaustion branches mirror the
  failure the Python loop would hit there (e.g. a read at a negative address
  raising `ValueError`).
-/

set_option maxRecDepth 100000

deriving instance DecidableEq for Except

namespace Corefile

/-- Python-level failures appearing in the module: `valueError` models
`ValueError` (seek out of range / short `ctypes` buffer), `assertionError` a
failing `assert`, `eofError` reading past the end of a tube's buffered data,
`parseError` a pyelftools/construct structural parse failure, and
`pwnlibError` the exception raised by `log.error`. -/
inductive PyErr
  | valueError
  | assertionError
  | eofError
  | parseError
  | pwnlibError
deriving DecidableEq, Repr

/-- `stream.read` semantics of a Python file object positioned at `pos`:
returns up to `len` bytes, fewer if the stream ends first. -/
def readBytes (stream : List Nat) (pos len : Nat) : List Nat :=
  (stream.drop pos).take len

/-- Little-endian decoding of a byte list, as `struct`/pwntools `unpack` do. -/
def leNat : List Nat → Nat
  | [] => 0
  | b :: bs => b + 256 * leNat bs

/-- pyelftools `elftools.common.utils.roundup`:
`roundup(num, bits) = (num + (1 << bits) - 1 >> bits) << bits`. -/
def roundup (num bits : Nat) : Nat :=
  ((num + (1 <<< bits) - 1) >>> bits) <<< bits

/-- Rounding up to a multiple of 4, the arithmetic named by the spec. -/
def roundUp4 (n : Nat) : Nat := ((n + 3) / 4) * 4

/-- One decoded note record, mirroring the fields `iter_notes` stores on the
pyelftools note container.  `n_type` is kept as the raw header integer;
pyelftools renders the value 1 as the enum string `NT_GNU_ABI_TAG` (the
mislabelled `NT_PRSTATUS`), which is what `Core.__init__` compares against,
while values outside the enum (such as `NT_FILE` and `NT_AUXV`) stay
integers. -/
structure Note where
  n_offset : Nat
  n_namesz : Nat
  n_descsz : Nat
  n_type   : Nat
  n_name   : List Nat
  n_desc   : List Nat
  n_size   : Nat
deriving DecidableEq, Repr

/-- The body of `iter_notes`: while `offset < end`, parse the fixed 12-byte
`Elf_Nhdr` (`n_namesz`, `n_descsz`, `n_type`, each a 4-byte word —
`struct_parse` raises on a short read, modelled by `none`), read the name over
`roundup(n_namesz, 2)` bytes (`CString` keeps the bytes before the NUL
terminator and fails if the padded region holds none), read `n_descsz` bytes
of descriptor (a plain `stream.read`, short at end-of-file), and advance the
cursor by the header size plus both rounded-up field sizes, recording that
advance as `n_size`.  Returns the yielded notes and the final cursor.  Each
iteration advances the cursor by at least 12, so the caller's fuel
`endPos - offset` is never exhausted; the guard in the fuel-0 branch mirrors
the loop condition. -/
def iterNotesAux (stream : List Nat) : Nat → Nat → Nat → Option (List Note × Nat)
  | 0, offset, endPos =>
    if offset < endPos then none else some ([], offset)
  | fuel + 1, offset, endPos =>
    if offset < endPos then
      let hdr := readBytes stream offset 12
      if hdr.length < 12 then none
      else
        let namesz := leNat (hdr.take 4)
        let descsz := leNat ((hdr.drop 4).take 4)
        let ntype  := leNat (hdr.drop 8)
        let nameRaw := readBytes stream (offset + 12) (roundup namesz 2)
        if 0 ∈ nameRaw then
          let off2 := offset + 12 + roundup namesz 2
          let ndesc := readBytes stream off2 descsz
          let off3 := off2 + roundup descsz 2
          let note : Note :=
            ⟨offset, namesz, descsz, ntype, nameRaw.takeWhile (· ≠ 0), ndesc,
             off3 - offset⟩
          match iterNotesAux stream fuel off3 endPos with
          | none => none
          | some (rest, fin) => some (note :: rest, fin)
        else none
    else some ([], offset)

/-- `iter_notes(segment)` over the whole file `stream` for a note segment
covering `[offset, offset + filesz)`; returns the notes and final cursor. -/
def iterNotes (stream : List Nat) (offset endPos : Nat) : Option (List Note × Nat) :=
  iterNotesAux stream (endPos - offset) offset endPos

/-- `tube()` loaded by `unrecv` with a note descriptor: `unpack()` pops one
little-endian word of `context.bytes` bytes; with fewer bytes buffered the
underlying `recvn` finds no further data and fails. -/
def tubeUnpack (W : Nat) (buf : List Nat) : Except PyErr (Nat × List Nat) :=
  if (buf.take W).length = W then .ok (leNat (buf.take W), buf.drop W)
  else .error .eofError

/-- `recvuntil('\x00', drop=True)`: the bytes before the next NUL, consuming
the NUL; with no NUL buffered the receive fails. -/
def tubeRecvUntilNul (buf : List Nat) : Except PyErr (List Nat × List Nat) :=
  if 0 ∈ buf then .ok (buf.takeWhile (· ≠ 0), (buf.dropWhile (· ≠ 0)).drop 1)
  else .error .eofError

/-- `Mapping(name, start, stop, flags)`.  `name` is `None` or a byte string;
`size` is assigned `stop - start` in the constructor (truncated at zero in
this `Nat` model; no claim depends on `size`). -/
structure Mapping where
  name : Option (List Nat)
  start : Nat
  stop : Nat
  size : Nat
  flags : Nat
deriving DecidableEq, Repr

def mkMapping (name : Option (List Nat)) (start stop flags : Nat) : Mapping :=
  ⟨name, start, stop, stop - start, flags⟩

/-- The program-header fields of a pyelftools segment used by the module.
`p_type` is the raw type value: 1 = `PT_LOAD`; 4 = `PT_NOTE`, which
pyelftools wraps in the `NoteSegment` objects that the `isinstance` check in
`Core.__init__` selects. -/
structure Segment where
  p_type : Nat
  p_flags : Nat
  p_offset : Nat
  p_vaddr : Nat
  p_filesz : Nat
  p_memsz : Nat
deriving DecidableEq, Repr

/-- The comparison behind `sorted(mappings, key=lambda m: m.start)`. -/
def mappingLe (a b : Mapping) : Prop := a.start ≤ b.start

instance : DecidableRel mappingLe := fun a b => Nat.decLe a.start b.start

instance : IsTotal Mapping mappingLe := ⟨fun a b => Nat.le_total a.start b.start⟩

instance : IsTrans Mapping mappingLe := ⟨fun _ _ _ h1 h2 => Nat.le_trans h1 h2⟩

/-- `sorted(mappings, key=lambda m: m.start)`.  Python's sort is stable, and
so is insertion sort (an element is inserted in front of the later-listed
elements of equal key), so the two agree. -/
def sortMappings (l : List Mapping) : List Mapping := List.insertionSort mappingLe l

/-- Python `dict` assignment `d[k] = v` on an association list: replace the
existing binding, else append. -/
def dictSet (d : List (Nat × Nat)) (k v : Nat) : List (Nat × Nat) :=
  if d.any (·.1 == k) then d.map (fun p => if p.1 == k then (k, v) else p)
  else d ++ [(k, v)]

/-- First loop of `_parse_nt_file`: `count` rounds of three `unpack()`s
building preliminary mappings with zero flags.  The Python dict
`addresses[start]` stores a reference to the same `Mapping` object the list
holds; an index into the growing list models that aliasing. -/
def ntFileTriples (W : Nat) : Nat → List Nat → List Mapping → List (Nat × Nat) →
    Except PyErr (List Nat × List Mapping × List (Nat × Nat))
  | 0, buf, ms, addrs => .ok (buf, ms, addrs)
  | k + 1, buf, ms, addrs =>
    match tubeUnpack W buf with
    | .error e => .error e
    | .ok (start, buf) =>
      match tubeUnpack W buf with
      | .error e => .error e
      | .ok (stop, buf) =>
        match tubeUnpack W buf with
        | .error e => .error e
        | .ok (_ofs, buf) =>
          ntFileTriples W k buf (ms ++ [mkMapping none start stop 0])
            (dictSet addrs start ms.length)

/-- Second loop of `_parse_nt_file`: `count` NUL-terminated names assigned to
`mappings[i].name` in order.  The out-of-range branch mirrors Python's
`IndexError`; it is unreachable because the first loop built `count`
mappings. -/
def ntFileNames : Nat → Nat → List Nat → List Mapping → Except PyErr (List Mapping)
  | 0, _, _, ms => .ok ms
  | k + 1, i, buf, ms =>
    match tubeRecvUntilNul buf with
    | .error e => .error e
    | .ok (fn, buf) =>
      match ms[i]? with
      | none => .error .valueError
      | some m => ntFileNames k (i + 1) buf (ms.set i { m with name := some fn })

/-- Third loop of `_parse_nt_file`: for each `PT_LOAD` segment, overwrite the
flags of the mapping registered at exactly `p_vaddr`, or synthesize an
unnamed `[vaddr, vaddr + memsz)` mapping with the segment's flags.  (The
`addresses` lookup returning an out-of-range index cannot happen; the entry
is skipped there.) -/
def ntFileMerge : List Segment → List Mapping → List (Nat × Nat) →
    List Mapping × List (Nat × Nat)
  | [], ms, addrs => (ms, addrs)
  | s :: ss, ms, addrs =>
    if s.p_type = 1 then
      match addrs.lookup s.p_vaddr with
      | some i =>
        match ms[i]? with
        | some m => ntFileMerge ss (ms.set i { m with flags := s.p_flags }) addrs
        | none => ntFileMerge ss ms addrs
      | none =>
        ntFileMerge ss
          (ms ++ [mkMapping none s.p_vaddr (s.p_vaddr + s.p_memsz) s.p_flags])
          (dictSet addrs s.p_vaddr ms.length)
    else ntFileMerge ss ms addrs

/-- `Core._parse_nt_file`: decode `count` and `page_size`, the `count`
(start, end, offset) triples, the `count` NUL-terminated names, merge the
loadable segments, then produce the mappings sorted by start address together
with the start-address dict.  The returned dict lists each start key with the
final value of the `Mapping` object it references (reference aliasing
materialised after all mutation). -/
def parseNtFile (W : Nat) (desc : List Nat) (segments : List Segment) :
    Except PyErr (List Mapping × List (Nat × Mapping)) :=
  match tubeUnpack W desc with
  | .error e => .error e
  | .ok (count, buf) =>
    match tubeUnpack W buf with
    | .error e => .error e
    | .ok (_page_size, buf) =>
      match ntFileTriples W count buf [] [] with
      | .error e => .error e
      | .ok (buf, ms, addrs) =>
        match ntFileNames count 0 buf ms with
        | .error e => .error e
        | .ok ms =>
          let merged := ntFileMerge segments ms addrs
          .ok (sortMappings merged.1,
            merged.2.map (fun p => (p.1, merged.1.getD p.2 (mkMapping none 0 0 0))))

/-- `constants.AT_EXECFN`. -/
def AT_EXECFN : Nat := 31

/-- The `_parse_auxv` loop body run `iters` times: two `unpack()`s per
iteration; an `AT_EXECFN` entry records the raw value as `at_execfn` and as
stack anchor the value with its low 12 bits cleared (`value & ~0xfff`, i.e.
`value - value % 0x1000`) advanced by one page. -/
def auxvLoop (W : Nat) : Nat → List Nat → Option Nat × Option Nat →
    Except PyErr (Option Nat × Option Nat)
  | 0, _, acc => .ok acc
  | k + 1, buf, acc =>
    match tubeUnpack W buf with
    | .error e => .error e
    | .ok (key, buf) =>
      match tubeUnpack W buf with
      | .error e => .error e
      | .ok (value, buf) =>
        auxvLoop W k buf
          (if key = AT_EXECFN then (some value, some (value - value % 4096 + 4096))
           else acc)

/-- `Core._parse_auxv`: `for i in range(0, n_descsz, context.bytes * 2)` runs
`⌈descsz / 2W⌉` iterations; a zero step makes `range` raise `ValueError`.
Returns the final `(at_execfn, stack)` assignments, `none` when no
`AT_EXECFN` entry was seen. -/
def parseAuxv (W descsz : Nat) (desc : List Nat) :
    Except PyErr (Option Nat × Option Nat) :=
  if W = 0 then .error .valueError
  else auxvLoop W ((descsz + 2 * W - 1) / (2 * W)) desc (none, none)

/-- The process image seen through `Core`'s memory reads: a finite
association from virtual address to byte value (the corefile is a finite
file).  A read at an address outside it raises `ValueError: seek out of
range`. -/
abbrev Mem := List (Nat × Nat)

/-- `self.u8(address)`. -/
def u8 (mem : Mem) (a : Nat) : Except PyErr Nat :=
  match mem.lookup a with
  | some b => .ok b
  | none => .error .valueError

/-- The `W` bytes at `a`, every one of which must be backed. -/
def readWord (mem : Mem) : Nat → Nat → Except PyErr (List Nat)
  | 0, _ => .ok []
  | k + 1, a =>
    match u8 mem a with
    | .error e => .error e
    | .ok b =>
      match readWord mem k (a + 1) with
      | .error e => .error e
      | .ok bs => .ok (b :: bs)

/-- `self.unpack(address)`: one unsigned little-endian word of
`context.bytes` bytes. -/
def unpackAt (W : Nat) (mem : Mem) (a : Nat) : Except PyErr Nat :=
  match readWord mem W a with
  | .error e => .error e
  | .ok bs => .ok (leNat bs)

/-- `self.string(address)`: the NUL-terminated byte string at `address`,
terminator dropped, walking one byte at a time.  The fuel `mem.length + 1`
can never be exhausted by a run of successful reads (each step needs a
distinct backed address), so the fuel-0 branch only mirrors reading past
everything backed. -/
def stringScan (mem : Mem) : Nat → Nat → List Nat → Except PyErr (List Nat)
  | 0, _, _ => .error .valueError
  | k + 1, a, acc =>
    match u8 mem a with
    | .error e => .error e
    | .ok 0 => .ok acc
    | .ok (b + 1) => stringScan mem k (a + 1) (acc ++ [b + 1])

def stringAt (mem : Mem) (a : Nat) : Except PyErr (List Nat) :=
  stringScan mem (mem.length + 1) a []

/-- `self.env[name] = envaddr` (dict semantics on an association list keyed
by the byte-string name: replace the existing binding, else append). -/
def envSet (env : List (List Nat × Nat)) (name : List Nat) (addr : Nat) :
    List (List Nat × Nat) :=
  if env.any (·.1 == name) then
    env.map (fun p => if p.1 == name then (name, addr) else p)
  else env ++ [(name, addr)]

/-- The byte-wise backward scan
`while self.u8(address-1) != 0: address -= 1`, returning the final `address`
(the start of the last environment string).  From address zero the Python
read at `-1` raises `ValueError`, uncaught at this point. -/
def scanBackByte (mem : Mem) : Nat → Except PyErr Nat
  | 0 => .error .valueError
  | a + 1 =>
    match u8 mem a with
    | .error e => .error e
    | .ok 0 => .ok (a + 1)
    | .ok (_ + 1) => scanBackByte mem a

/-- `address &= ~(context.bytes - 1)` — for the word sizes the module runs
with (4 or 8, powers of two) this clears the low bits, i.e. rounds down to a
multiple of `W`. -/
def alignDown (a W : Nat) : Nat := a - a % W

/-- `while self.unpack(address) != last_env_addr: address -= context.bytes`.
A step past zero would read at a negative address (`ValueError`, uncaught).
With fuel `address + 1` and `W > 0` the fuel cannot run out (each step
lowers `address` by `W ≥ 1`); with the impossible `W = 0` the Python loop
would rescan the same word forever. -/
def findEnvpSlot (W : Nat) (mem : Mem) (lastEnv : Nat) : Nat → Nat → Except PyErr Nat
  | 0, _ => .error .valueError
  | k + 1, address =>
    match unpackAt W mem address with
    | .error e => .error e
    | .ok v =>
      if v = lastEnv then .ok address
      else if address < W then .error .valueError
      else findEnvpSlot W mem lastEnv k (address - W)

/-- `while self.unpack(address - context.bytes) != 0: address -= context.bytes`
(walking back over the argv array); same conventions as `findEnvpSlot`. -/
def argvScan (W : Nat) (mem : Mem) : Nat → Nat → Except PyErr Nat
  | 0, _ => .error .valueError
  | k + 1, address =>
    if address < W then .error .valueError
    else
      match unpackAt W mem (address - W) with
      | .error e => .error e
      | .ok 0 => .ok address
      | .ok (_ + 1) => argvScan W mem k (address - W)

/-- `for env in range(start_of_envp, end_of_envp, context.bytes)`: read each
slot as a pointer, read the string it points at, and record
`name ↦ envaddr` where the name is the part before the first `=` (byte 61).
Fuel `stopPos - pos + 1` outruns the at most `⌈(stopPos-pos)/W⌉` iterations
for `W ≥ 1`. -/
def envFill (W : Nat) (mem : Mem) : Nat → Nat → Nat → List (List Nat × Nat) →
    Except PyErr (List (List Nat × Nat))
  | 0, pos, stopPos, env => if pos < stopPos then .error .valueError else .ok env
  | k + 1, pos, stopPos, env =>
    if pos < stopPos then
      match unpackAt W mem pos with
      | .error e => .error e
      | .ok envaddr =>
        match stringAt mem envaddr with
        | .error e => .error e
        | .ok value =>
          envFill W mem k (pos + W) stopPos
            (envSet env (value.takeWhile (· ≠ 61)) envaddr)
    else .ok env

/-- `Core._parse_stack`.  Only the initial sanity check sits inside the
`try/except`: an `AssertionError` (nonzero byte) or `ValueError` (unbacked
read; also the negative-address read when `at_execfn = 0`) there makes the
method return silently with the environment untouched.  Every later read
failure, and the later bare `assert` on the envp NULL terminator, propagate
to the caller. -/
def parseStack (W : Nat) (mem : Mem) (at_execfn : Nat)
    (env0 : List (List Nat × Nat)) : Except PyErr (List (List Nat × Nat)) :=
  if at_execfn = 0 then .ok env0
  else
    let address := at_execfn - 1
    match u8 mem address with
    | .error _ => .ok env0
    | .ok b =>
      if b ≠ 0 then .ok env0
      else
        match scanBackByte mem address with
        | .error e => .error e
        | .ok lastEnv =>
          let aligned := alignDown lastEnv W
          match findEnvpSlot W mem lastEnv (aligned + 1) aligned with
          | .error e => .error e
          | .ok slot =>
            match unpackAt W mem (slot + W) with
            | .error e => .error e
            | .ok v =>
              if v ≠ 0 then .error .assertionError
              else
                match argvScan W mem (slot + 1) slot with
                | .error e => .error e
                | .ok startOfEnvp =>
                  envFill W mem (slot + W - startOfEnvp + 1) startOfEnvp
                    (slot + W) env0

/-- `Core.getenv(name)`: a missing name hits `log.error`, which raises;
otherwise the code returns `self.string(self.env[name]).split('=',1)[-1]` —
the byte string after the first `=` (the whole string when no `=` occurs),
not an address. -/
def getenv (mem : Mem) (env : List (List Nat × Nat)) (name : List Nat) :
    Except PyErr (List Nat) :=
  match env.lookup name with
  | none => .error .pwnlibError
  | some addr =>
    match stringAt mem addr with
    | .error e => .error e
    | .ok s => .ok (if (61 : Nat) ∈ s then (s.dropWhile (· ≠ 61)).drop 1 else s)

/-- `constants.NT_FILE`. -/
def NT_FILE : Nat := 0x46494c45

/-- `constants.NT_AUXV`. -/
def NT_AUXV : Nat := 6

/-- The `self.stack` attribute over the run of `__init__`: `None` initially,
an address after `_parse_auxv`, and the stack `Mapping` — tracked by its
index into `self.mappings`, which models the object reference — after the
match at the end of `__init__`. -/
inductive StackF
  | noneV
  | addr (a : Nat)
  | mapIdx (i : Nat)
deriving DecidableEq, Repr

/-- The attributes a `Core` derives.  `prstatus` holds the raw bytes copied
by `ctypes.from_buffer_copy` (field decoding belongs to the external
architecture descriptor).  `stackParsed` is a ghost flag recording only that
`_parse_stack` was invoked — an observation aid with no source
counterpart. -/
structure CoreState where
  prstatus : Option (List Nat)
  mappings : List Mapping
  addresses : List (Nat × Mapping)
  stack : StackF
  at_execfn : Option Nat
  env : List (List Nat × Nat)
  stackParsed : Bool
deriving DecidableEq, Repr

/-- The attribute initialisation at the top of `Core.__init__`. -/
def initState : CoreState := ⟨none, [], [], .noneV, none, [], false⟩

/-- First `if` of the note dispatch in `Core.__init__`: a note qualifies as
the process-status note when its declared descriptor size equals
`ctypes.sizeof(prstatus_type)` (`prsz`, the size of the external
architecture register layout) and its type value is 1 — which pyelftools
renders as the enum string `NT_GNU_ABI_TAG`, the comparison the code makes.
`from_buffer_copy` copies `prsz` bytes and raises `ValueError` on a shorter
buffer. -/
def notePrstatusStep (prsz : Nat) (st : CoreState) (n : Note) :
    Except PyErr CoreState :=
  if n.n_descsz = prsz ∧ n.n_type = 1 then
    (if n.n_desc.length < prsz then .error .valueError
     else .ok { st with prstatus := some (n.n_desc.take prsz) })
  else .ok st

/-- Second `if` of the dispatch: a mapped-file note is handed to
`_parse_nt_file`, which replaces `self.mappings` and `self.addresses`. -/
def noteFileStep (W : Nat) (segments : List Segment) (st : CoreState)
    (n : Note) : Except PyErr CoreState :=
  if n.n_type = NT_FILE then
    match parseNtFile W n.n_desc segments with
    | .error e => .error e
    | .ok (ms, addrs) => .ok { st with mappings := ms, addresses := addrs }
  else .ok st

/-- Third `if` of the dispatch: an auxiliary-vector note is handed to
`_parse_auxv`; an `AT_EXECFN` entry sets `self.at_execfn` and
`self.stack` together. -/
def noteAuxvStep (W : Nat) (st : CoreState) (n : Note) : Except PyErr CoreState :=
  if n.n_type = NT_AUXV then
    match parseAuxv W n.n_descsz n.n_desc with
    | .error e => .error e
    | .ok (some v, some s) => .ok { st with at_execfn := some v, stack := .addr s }
    | .ok _ => .ok st
  else .ok st

/-- One note through the three sequential `if`s of the `__init__` scan; any
exception propagates. -/
def processNote (W prsz : Nat) (segments : List Segment) (st : CoreState)
    (n : Note) : Except PyErr CoreState :=
  match notePrstatusStep prsz st n with
  | .error e => .error e
  | .ok st =>
    match noteFileStep W segments st n with
    | .error e => .error e
    | .ok st => noteAuxvStep W st n

/-- One segment of the `__init__` scan: only note segments are walked; a
pyelftools parse failure inside `iter_notes` propagates. -/
def processSegment (W prsz : Nat) (segments : List Segment) (stream : List Nat)
    (st : CoreState) (s : Segment) : Except PyErr CoreState :=
  if s.p_type = 4 then
    match iterNotes stream s.p_offset (s.p_offset + s.p_filesz) with
    | none => .error .parseError
    | some (notes, _) => notes.foldlM (processNote W prsz segments) st
  else .ok st

/-- `mapping.stop == self.stack`: an `int` equals the anchor address only
while `self.stack` still holds the address; once it holds the stack
`Mapping`, comparing an `int` with a `Mapping` is `False` in Python. -/
def stackEq (stop : Nat) (st : StackF) : Bool :=
  match st with
  | .addr a => stop == a
  | _ => false

/-- The bytes of the string `'[stack]'`. -/
def stackName : List Nat := [91, 115, 116, 97, 99, 107, 93]

/-- The `for mapping in self.mappings` loop at the end of `__init__`: on
`mapping.stop == self.stack`, rename the mapping `'[stack]'`, store it in
`self.stack`, and run `_parse_stack` (uncaught exceptions propagating).  The
walk then continues over the remaining mappings, without further matches
possible.  `_parse_stack` reads `self.at_execfn`, which is always set when
`self.stack` is (both are assigned together in `_parse_auxv`). -/
def stackLoop (W : Nat) (mem : Mem) : Nat → Nat → CoreState → Except PyErr CoreState
  | 0, _, st => .ok st
  | k + 1, i, st =>
    match st.mappings[i]? with
    | none => .ok st
    | some m =>
      if stackEq m.stop st.stack then
        let st' := { st with
          mappings := st.mappings.set i { m with name := some stackName },
          stack := StackF.mapIdx i }
        match parseStack W mem (st'.at_execfn.getD 0) st'.env with
        | .error e => .error e
        | .ok env' =>
          stackLoop W mem k (i + 1) { st' with env := env', stackParsed := true }
      else stackLoop W mem k (i + 1) st

/-- `if self.stack and self.mappings:` — `self.stack` is an `int` at this
point, truthy when nonzero — followed by the mapping walk. -/
def stackPhase (W : Nat) (mem : Mem) (st : CoreState) : Except PyErr CoreState :=
  match st.stack with
  | .addr a =>
    if a ≠ 0 ∧ st.mappings ≠ [] then stackLoop W mem st.mappings.length 0 st
    else .ok st
  | _ => .ok st

/-- `Core.__init__` after the ELF-level object-type and architecture
validation: scan all note segments, dispatch every note, then locate the
stack mapping and reconstruct the environment.  `stream` holds the
corefile's raw bytes (note payloads are read from it), `mem` the
address-indexed memory view behind `u8`/`unpack`/`string`. -/
def buildCore (W prsz : Nat) (segments : List Segment) (stream : List Nat)
    (mem : Mem) : Except PyErr CoreState :=
  match segments.foldlM (processSegment W prsz segments stream) initState with
  | .error e => .error e
  | .ok st => stackPhase W mem st

/-! Claim-side predicates and concrete scenario inputs. -/

/-- Strict ordering by start address, as asserted by the spec. -/
def strictLt (a b : Mapping) : Prop := a.start < b.start

instance : DecidableRel strictLt := fun a b => Nat.decLt a.start b.start

/-- Two half-open ranges overlap when each starts below the other's end. -/
def overlaps (a b : Mapping) : Prop := a.start < b.stop ∧ b.start < a.stop

instance : Decidable (overlaps a b) := by unfold overlaps; infer_instance

instance : DecidableRel (fun a b => ¬ overlaps a b) := fun _ _ => instDecidableNot

/-- The invariant the spec asserts of every image's mapping list: strictly
sorted by start address and pairwise non-overlapping. -/
def strictSortedNonOverlap (ms : List Mapping) : Prop :=
  ms.Pairwise strictLt ∧ ms.Pairwise (fun a b => ¬ overlaps a b)

instance (ms : List Mapping) : Decidable (strictSortedNonOverlap ms) := by
  unfold strictSortedNonOverlap; infer_instance

/-- The process-status bytes retained after scanning `notes` in order
starting from `d`: every qualifying note (descriptor size equal to the
register-layout size, type value 1) overwrites the previously held value. -/
def lastQual (prsz : Nat) : List Note → Option (List Nat) → Option (List Nat)
  | [], d => d
  | n :: ns, d =>
    lastQual prsz ns
      (if n.n_descsz = prsz ∧ n.n_type = 1 then some (n.n_desc.take prsz) else d)

/-- The last mapped-file note of a note list, if any. -/
def lastNtFile : List Note → Option Note
  | [] => none
  | n :: ns =>
    match lastNtFile ns with
    | some m => some m
    | none => if n.n_type = NT_FILE then some n else none

/-- C1 scenario: a mapped-file note whose table lists the range `[0,1)`
twice (count 2, page size 0, two `(0,1,0)` triples, names `a` and `b`). -/
def c1desc : List Nat :=
  [2,0,0,0, 0,0,0,0,
   0,0,0,0, 1,0,0,0, 0,0,0,0,
   0,0,0,0, 1,0,0,0, 0,0,0,0] ++ [97,0,98,0]

/-- C1 scenario: a note segment holding one `NT_FILE` note (name `COR`,
type bytes `ELIF` = `0x46494c45` little-endian) with descriptor `c1desc`. -/
def c1stream : List Nat :=
  [4,0,0,0, 36,0,0,0, 69,76,73,70, 67,79,82,0] ++ c1desc

def c1segs : List Segment := [⟨4, 0, 0, 0, 52, 0⟩]

def c1state : CoreState := (buildCore 4 999 c1segs c1stream []).toOption.getD initState

/-- C1 witness scenario: same shape with two disjoint ranges `[16,32)` and
`[0,8)`, listed out of order. -/
def c1wdesc : List Nat :=
  [2,0,0,0, 0,0,0,0,
   16,0,0,0, 32,0,0,0, 0,0,0,0,
   0,0,0,0, 8,0,0,0, 0,0,0,0] ++ [97,0,98,0]

def c1wstream : List Nat :=
  [4,0,0,0, 36,0,0,0, 69,76,73,70, 67,79,82,0] ++ c1wdesc

def c1wsegs : List Segment := [⟨4, 0, 0, 0, 52, 0⟩]

def c1wSt : CoreState := (buildCore 4 999 c1wsegs c1wstream []).toOption.getD initState

/-- C2 scenario, word size 4, `at_execfn = 100`: the byte at 99 is zero
(sanity check passes), the last environment string starts at 98, the word at
92 holds 98 (the envp slot), but the following word at 96 is nonzero — the
envp NULL-terminator check fails. -/
def c2mem : Mem :=
  [(99,0),(98,65),(97,0),(96,0),(95,0),(94,0),(93,0),(92,98)]

/-- C3 scenario: the sanity byte at 99 reads zero, the byte at 98 is
nonzero, and the byte at 97 is unbacked — the second read of the backward
scan fails. -/
def c3mem : Mem := [(99,0),(98,7)]

/-- C5 scenario: the string `PATH=/bin` at address 1000 and an environment
table mapping `PATH` to 1000. -/
def c5mem : Mem :=
  [(1000,80),(1001,65),(1002,84),(1003,72),(1004,61),
   (1005,47),(1006,98),(1007,105),(1008,110),(1009,0)]

def c5env : List (List Nat × Nat) := [([80,65,84,72], 1000)]

/-- C4 scenario: two notes both qualifying as process-status notes for a
register layout of size 4 (type 1, descriptor size 4), with descriptors
`[1,0,0,0]` and `[2,0,0,0]`. -/
def c4stream : List Nat :=
  [4,0,0,0, 4,0,0,0, 1,0,0,0, 67,79,82,0, 1,0,0,0] ++
  [4,0,0,0, 4,0,0,0, 1,0,0,0, 67,79,82,0, 2,0,0,0]

def c4segs : List Segment := [⟨4, 0, 0, 0, 40, 0⟩]

def c4n1 : Note := ⟨0, 4, 4, 1, [67,79,82], [1,0,0,0], 20⟩

def c4n2 : Note := ⟨20, 4, 4, 1, [67,79,82], [2,0,0,0], 20⟩

def c4state : CoreState := (buildCore 4 4 c4segs c4stream []).toOption.getD initState

def c4wNotes : List Note := [c4n1, c4n2]

def c4wSt : CoreState :=
  (c4wNotes.foldlM (processNote 4 4 []) initState).toOption.getD initState

/-- C6 scenario: a mapped-file note describing `[0x1000, 0x3000)` and an
auxiliary vector with `AT_EXECFN = 0x1f00`, so the derived stack anchor
`0x2000` lies strictly inside the mapping but equals no mapping's end. -/
def c6ntdesc : List Nat :=
  [1,0,0,0, 0,16,0,0, 0,16,0,0, 0,48,0,0, 0,0,0,0] ++ [97,0]

def c6auxdesc : List Nat := [31,0,0,0, 0,31,0,0]

def c6stream : List Nat :=
  [4,0,0,0, 22,0,0,0, 69,76,73,70, 67,79,82,0] ++ c6ntdesc ++ [0,0] ++
  [4,0,0,0, 8,0,0,0, 6,0,0,0, 67,79,82,0] ++ c6auxdesc

def c6segs : List Segment := [⟨4, 0, 0, 0, 64, 0⟩]

def c6state : CoreState := (buildCore 4 999 c6segs c6stream []).toOption.getD initState

/-- C6 witness scenario: an anchor of 9 and two mappings `[0,5)` and
`[5,9)`; the second mapping's exclusive end equals the anchor, and the
memory view is empty so the invoked reconstructor takes its silent path. -/
def c6wSt : CoreState :=
  { initState with
    stack := .addr 9,
    at_execfn := some 50,
    mappings := [mkMapping none 0 5 0, mkMapping none 5 9 0] }

/-- C7 scenario: a 40-byte stream whose single note (header at 0, name
`COR`, declared descriptor size 16) spans `[0,32)`, parsed against a note
range that ends at 20. -/
def c7stream : List Nat :=
  [4,0,0,0, 16,0,0,0, 1,0,0,0, 67,79,82,0] ++
  [1,2,3,4,5,6,7,8,9,10,11,12,13,14,15,16] ++ [77,77,77,77,77,77,77,77]

/-- C7 witness scenario: an 18-byte stream whose single note spans `[0,20)`
(descriptor size 2, rounded to 4), against a range ending at 18. -/
def c7wstream : List Nat := [4,0,0,0, 2,0,0,0, 6,0,0,0, 88,0,0,0, 5,5]

def c7wNote : Note := ⟨0, 4, 2, 6, [88], [5,5], 20⟩

/-- C8 witness scenario: a 20-byte range tiled exactly by one note. -/
def c8stream : List Nat := [4,0,0,0, 4,0,0,0, 1,0,0,0, 67,79,82,0, 9,9,9,9]

def c8notes : List Note := [⟨0, 4, 4, 1, [67,79,82], [9,9,9,9], 20⟩]

/-- C10 witness scenario: two mapped-file notes; the first has an empty
table, the second describes `[3,4)` named `z`. -/
def c10n1 : Note := ⟨0, 4, 8, 0x46494c45, [67,79,82], [0,0,0,0, 0,0,0,0], 24⟩

def c10n2 : Note :=
  ⟨24, 4, 22, 0x46494c45, [67,79,82],
   [1,0,0,0, 0,0,0,0, 3,0,0,0, 4,0,0,0, 0,0,0,0, 122,0], 40⟩

def c10wNotes : List Note := [c10n1, c10n2]

def c10wSt : CoreState :=
  (c10wNotes.foldlM (processNote 4 999 []) initState).toOption.getD initState

theorem roundup_two_eq_roundUp4 (n : Nat) : roundup n 2 = roundUp4 n := by
  simp [roundup, roundUp4, Nat.shiftLeft_eq, Nat.shiftRight_eq_div_pow]

theorem iterNotesAux_sizes (stream : List Nat) :
    ∀ (fuel offset endPos : Nat) (notes : List Note) (fin : Nat),
      iterNotesAux stream fuel offset endPos = some (notes, fin) →
      (∀ n ∈ notes,
          n.n_size = 12 + roundup n.n_namesz 2 + roundup n.n_descsz 2 ∧
          n.n_offset < endPos ∧
          n.n_desc = readBytes stream (n.n_offset + 12 + roundup n.n_namesz 2) n.n_descsz ∧
          n.n_name = (readBytes stream (n.n_offset + 12) (roundup n.n_namesz 2)).takeWhile (· ≠ 0)) ∧
        offset ≤ fin ∧ (notes.map (·.n_size)).sum = fin - offset := by
  intro fuel
  induction fuel with
  | zero =>
    intro offset endPos notes fin h
    simp only [iterNotesAux] at h
    split at h
    · exact absurd h (by simp)
    · obtain ⟨h1, h2⟩ := Prod.mk.injEq .. ▸ (Option.some.injEq .. ▸ h)
      subst h1; subst h2
      simp
  | succ fuel ih =>
    intro offset endPos notes fin h
    simp only [iterNotesAux] at h
    split at h
    case isTrue hlt =>
      split at h
      · exact absurd h (by simp)
      · split at h
        case isTrue hmem =>
          split at h
          case h_1 => exact absurd h (by simp)
          case h_2 rest fin' heq =>
            obtain ⟨h1, h2⟩ := Prod.mk.injEq .. ▸ (Option.some.injEq .. ▸ h)
            subst h2
            obtain ⟨hrec1, hrec2, hrec3⟩ := ih _ _ _ _ heq
            constructor
            · intro n hn
              rw [← h1] at hn
              rcases List.mem_cons.mp hn with hhd | htl
              · subst hhd
                refine ⟨?_, hlt, rfl, rfl⟩
                dsimp only
                omega
              · exact hrec1 n htl
            · constructor
              · omega
              · rw [← h1]
                simp only [List.map_cons, List.sum_cons]
                omega
        case isFalse => exact absurd h (by simp)
    case isFalse hge =>
      obtain ⟨h1, h2⟩ := Prod.mk.injEq .. ▸ (Option.some.injEq .. ▸ h)
      subst h1; subst h2
      simp

theorem ok_bind {α β : Type} (x : α) (f : α → Except PyErr β) :
    (Except.ok x >>= f) = f x := rfl

theorem error_bind {α β : Type} (e : PyErr) (f : α → Except PyErr β) :
    ((Except.error e : Except PyErr α) >>= f) = Except.error e := rfl

theorem pure_eq_ok {α : Type} (x : α) : (pure x : Except PyErr α) = .ok x := rfl

/-- Any property preserved by every successful step of a monadic fold over
`Except` is preserved by the whole fold. -/
theorem foldlM_preserve {α σ : Type} (f : σ → α → Except PyErr σ) (P : σ → Prop)
    (hf : ∀ s a s', f s a = .ok s' → P s → P s') :
    ∀ (l : List α) (s s' : σ), l.foldlM f s = .ok s' → P s → P s' := by
  intro l
  induction l with
  | nil =>
    intro s s' h hp
    rw [List.foldlM_nil, pure_eq_ok] at h
    cases h
    exact hp
  | cons a l ih =>
    intro s s' h hp
    rw [List.foldlM_cons] at h
    cases hstep : f s a with
    | error e => rw [hstep, error_bind] at h; exact Except.noConfusion h
    | ok s1 =>
      rw [hstep, ok_bind] at h
      exact ih s1 s' h (hf s a s1 hstep hp)

theorem notePrstatusStep_ok (prsz : Nat) (st st' : CoreState) (n : Note)
    (h : notePrstatusStep prsz st n = .ok st') :
    st' = (if n.n_descsz = prsz ∧ n.n_type = 1 then
      { st with prstatus := some (n.n_desc.take prsz) } else st) := by
  unfold notePrstatusStep at h
  by_cases h1 : n.n_descsz = prsz ∧ n.n_type = 1
  · rw [if_pos h1] at h
    rw [if_pos h1]
    by_cases h2 : n.n_desc.length < prsz
    · rw [if_pos h2] at h; exact Except.noConfusion h
    · rw [if_neg h2] at h; cases h; rfl
  · rw [if_neg h1] at h
    rw [if_neg h1]
    cases h; rfl

theorem noteFileStep_ok (W : Nat) (segs : List Segment) (st st' : CoreState)
    (n : Note) (h : noteFileStep W segs st n = .ok st') :
    (n.n_type ≠ NT_FILE → st' = st) ∧
    (n.n_type = NT_FILE →
      parseNtFile W n.n_desc segs = .ok (st'.mappings, st'.addresses) ∧
      st'.prstatus = st.prstatus ∧ st'.stack = st.stack ∧
      st'.at_execfn = st.at_execfn ∧ st'.env = st.env ∧
      st'.stackParsed = st.stackParsed) := by
  unfold noteFileStep at h
  by_cases h1 : n.n_type = NT_FILE
  · rw [if_pos h1] at h
    refine ⟨fun hc => absurd h1 hc, fun _ => ?_⟩
    cases hp : parseNtFile W n.n_desc segs with
    | error e => rw [hp] at h; exact Except.noConfusion h
    | ok p =>
      rw [hp] at h
      cases p with
      | mk ms addrs => cases h; exact ⟨rfl, rfl, rfl, rfl, rfl, rfl⟩
  · rw [if_neg h1] at h
    cases h
    exact ⟨fun _ => rfl, fun hc => absurd hc h1⟩

theorem noteAuxvStep_ok (W : Nat) (st st' : CoreState) (n : Note)
    (h : noteAuxvStep W st n = .ok st') :
    st'.prstatus = st.prstatus ∧ st'.mappings = st.mappings ∧
    st'.addresses = st.addresses ∧ st'.env = st.env ∧
    st'.stackParsed = st.stackParsed := by
  unfold noteAuxvStep at h
  by_cases h1 : n.n_type = NT_AUXV
  · rw [if_pos h1] at h
    cases hp : parseAuxv W n.n_descsz n.n_desc with
    | error e => rw [hp] at h; exact Except.noConfusion h
    | ok p =>
      rw [hp] at h
      match p with
      | (some v, some s) => cases h; exact ⟨rfl, rfl, rfl, rfl, rfl⟩
      | (some v, none) => cases h; exact ⟨rfl, rfl, rfl, rfl, rfl⟩
      | (none, some s) => cases h; exact ⟨rfl, rfl, rfl, rfl, rfl⟩
      | (none, none) => cases h; exact ⟨rfl, rfl, rfl, rfl, rfl⟩
  · rw [if_neg h1] at h
    cases h
    exact ⟨rfl, rfl, rfl, rfl, rfl⟩

theorem processNote_fields (W prsz : Nat) (segs : List Segment)
    (st st' : CoreState) (n : Note)
    (h : processNote W prsz segs st n = .ok st') :
    st'.prstatus = (if n.n_descsz = prsz ∧ n.n_type = 1 then
        some (n.n_desc.take prsz) else st.prstatus) ∧
    (n.n_type ≠ NT_FILE →
      st'.mappings = st.mappings ∧ st'.addresses = st.addresses) ∧
    (n.n_type = NT_FILE →
      parseNtFile W n.n_desc segs = .ok (st'.mappings, st'.addresses)) := by
  unfold processNote at h
  cases h1 : notePrstatusStep prsz st n with
  | error e => rw [h1] at h; exact Except.noConfusion h
  | ok st1 =>
    rw [h1] at h
    dsimp only at h
    have hst1 := notePrstatusStep_ok prsz st st1 n h1
    cases h2 : noteFileStep W segs st1 n with
    | error e => rw [h2] at h; exact Except.noConfusion h
    | ok st2 =>
      rw [h2] at h
      dsimp only at h
      obtain ⟨hfne, hfeq⟩ := noteFileStep_ok W segs st1 st2 n h2
      obtain ⟨hap, ham, haa, _, _⟩ := noteAuxvStep_ok W st2 st' n h
      have hst1p : st1.prstatus = (if n.n_descsz = prsz ∧ n.n_type = 1 then
          some (n.n_desc.take prsz) else st.prstatus) := by
        rw [hst1]; split <;> rfl
      have hst1m : st1.mappings = st.mappings := by rw [hst1]; split <;> rfl
      have hst1a : st1.addresses = st.addresses := by rw [hst1]; split <;> rfl
      refine ⟨?_, ?_, ?_⟩
      · rw [hap]
        by_cases hF : n.n_type = NT_FILE
        · obtain ⟨_, hps, _⟩ := hfeq hF
          rw [hps, hst1p]
        · rw [hfne hF, hst1p]
      · intro hF
        rw [ham, haa, hfne hF, hst1m, hst1a]
        exact ⟨rfl, rfl⟩
      · intro hF
        obtain ⟨hpf, _⟩ := hfeq hF
        rw [ham, haa]
        exact hpf

theorem parseNtFile_sorted (W : Nat) (desc : List Nat) (segs : List Segment)
    (ms : List Mapping) (addrs : List (Nat × Mapping))
    (h : parseNtFile W desc segs = .ok (ms, addrs)) :
    ms.Pairwise mappingLe := by
  unfold parseNtFile at h
  split at h
  · exact Except.noConfusion h
  · split at h
    · exact Except.noConfusion h
    · split at h
      · exact Except.noConfusion h
      · split at h
        · exact Except.noConfusion h
        · rw [Except.ok.injEq, Prod.mk.injEq] at h
          rw [← h.1]
          exact List.sorted_insertionSort mappingLe _

/-- Replacing a list element by one with the same start address preserves
sortedness by start address. -/
theorem pairwise_mappingLe_set (ms : List Mapping) (i : Nat) (m m' : Mapping)
    (hm : ms[i]? = some m) (hstart : m'.start = m.start)
    (h : ms.Pairwise mappingLe) : (ms.set i m').Pairwise mappingLe := by
  obtain ⟨hi, hgot⟩ := List.getElem?_eq_some.mp hm
  have hms : m'.start = ms[i].start := by rw [hgot]; exact hstart
  rw [List.pairwise_iff_getElem] at h ⊢
  intro a b ha hb hab
  simp only [List.length_set] at ha hb
  rw [List.getElem_set, List.getElem_set]
  by_cases hia : i = a <;> by_cases hib : i = b
  · exact absurd hab (by omega)
  · rw [if_pos hia, if_neg hib]
    unfold mappingLe
    rw [hms]
    exact h i b (by omega) hb (by omega)
  · rw [if_neg hia, if_pos hib]
    unfold mappingLe
    rw [hms]
    exact h a i ha (by omega) (by omega)
  · rw [if_neg hia, if_neg hib]
    exact h a b ha hb hab

theorem stackLoop_pairwise (W : Nat) (mem : Mem) :
    ∀ (k i : Nat) (st st' : CoreState), stackLoop W mem k i st = .ok st' →
      st.mappings.Pairwise mappingLe → st'.mappings.Pairwise mappingLe := by
  intro k
  induction k with
  | zero =>
    intro i st st' h hp
    simp only [stackLoop] at h
    cases h
    exact hp
  | succ k ih =>
    intro i st st' h hp
    simp only [stackLoop] at h
    split at h
    · cases h; exact hp
    case h_2 m hm =>
      split at h
      · split at h
        · exact Except.noConfusion h
        case h_2 env' hps =>
          refine ih _ _ _ h ?_
          exact pairwise_mappingLe_set st.mappings i m _ hm rfl hp
      · exact ih _ _ _ h hp

theorem stackPhase_pairwise (W : Nat) (mem : Mem) (st st' : CoreState)
    (h : stackPhase W mem st = .ok st')
    (hp : st.mappings.Pairwise mappingLe) : st'.mappings.Pairwise mappingLe := by
  cases hstk : st.stack with
  | noneV =>
    unfold stackPhase at h; rw [hstk] at h; dsimp only at h; cases h; exact hp
  | mapIdx i =>
    unfold stackPhase at h; rw [hstk] at h; dsimp only at h; cases h; exact hp
  | addr a =>
    unfold stackPhase at h
    rw [hstk] at h
    dsimp only at h
    split at h
    · exact stackLoop_pairwise W mem _ _ _ _ h hp
    · cases h; exact hp

theorem lastNtFile_none {notes : List Note} (h : lastNtFile notes = none) :
    ∀ n ∈ notes, n.n_type ≠ NT_FILE := by
  induction notes with
  | nil => intro n hn; cases hn
  | cons m ms ih =>
    intro n hn
    simp only [lastNtFile] at h
    split at h
    · exact Option.noConfusion h
    · rename_i hnone
      split at h
      · exact Option.noConfusion h
      · rename_i hne
        rcases List.mem_cons.mp hn with hh | ht
        · subst hh; exact hne
        · exact ih hnone n ht

theorem mul_add_div_eq (d q r : Nat) (hd : 0 < d) (hr : r < d) :
    (d * q + r) / d = q := by
  rw [Nat.mul_add_div hd, Nat.div_eq_of_lt hr, Nat.add_zero]

theorem auxvLoop_even (W : Nat) (hW : 0 < W) :
    ∀ (k : Nat) (buf : List Nat) (acc : Option Nat × Option Nat),
      buf.length = 2 * k * W → (auxvLoop W k buf acc).isOk = true := by
  intro k
  induction k with
  | zero =>
    intro buf acc h
    simp only [auxvLoop]
    rfl
  | succ k ih =>
    intro buf acc h
    have hlen : buf.length = 2 * k * W + 2 * W := by
      rw [h, Nat.mul_succ, Nat.add_mul]
    have hWle : W ≤ buf.length := by
      rw [hlen]
      calc W ≤ 2 * W := by omega
        _ ≤ 2 * k * W + 2 * W := Nat.le_add_left _ _
    have hWle2 : 2 * W ≤ buf.length := hlen ▸ Nat.le_add_left _ _
    have h1 : (buf.take W).length = W := by rw [List.length_take]; omega
    have h2 : ((buf.drop W).take W).length = W := by
      rw [List.length_take, List.length_drop]; omega
    simp only [auxvLoop, tubeUnpack]
    rw [if_pos h1]
    dsimp only
    rw [if_pos h2]
    dsimp only
    refine ih _ _ ?_
    simp only [List.length_drop]
    omega

theorem auxvLoop_odd (W : Nat) (hW : 0 < W) :
    ∀ (k : Nat) (buf : List Nat) (acc : Option Nat × Option Nat),
      buf.length = (2 * k + 1) * W →
      auxvLoop W (k + 1) buf acc = .error .eofError := by
  intro k
  induction k with
  | zero =>
    intro buf acc h
    rw [show (2 * 0 + 1) * W = W by ring] at h
    have h1 : (buf.take W).length = W := by rw [List.length_take]; omega
    have h2 : ((buf.drop W).take W).length ≠ W := by
      rw [List.length_take, List.length_drop]; omega
    simp only [auxvLoop, tubeUnpack]
    rw [if_pos h1]
    dsimp only
    rw [if_neg h2]
  | succ k ih =>
    intro buf acc h
    have hsp : (2 * (k + 1) + 1) * W = (2 * k + 1) * W + 2 * W := by ring
    have hlen : buf.length = (2 * k + 1) * W + 2 * W := by rw [h, hsp]
    have hWle : W ≤ buf.length := by
      rw [hlen]
      calc W ≤ 2 * W := by omega
        _ ≤ (2 * k + 1) * W + 2 * W := Nat.le_add_left _ _
    have hWle2 : 2 * W ≤ buf.length := hlen ▸ Nat.le_add_left _ _
    have h1 : (buf.take W).length = W := by rw [List.length_take]; omega
    have h2 : ((buf.drop W).take W).length = W := by
      rw [List.length_take, List.length_drop]; omega
    show auxvLoop W (k + 1 + 1) buf acc = .error .eofError
    simp only [auxvLoop, tubeUnpack]
    rw [if_pos h1]
    dsimp only
    rw [if_pos h2]
    dsimp only
    have hrec := ih ((buf.drop W).drop W)
      (if leNat (buf.take W) = AT_EXECFN then
        (some (leNat ((buf.drop W).take W)),
         some (leNat ((buf.drop W).take W) - leNat ((buf.drop W).take W) % 4096 + 4096))
       else acc)
      (by simp only [List.length_drop]; omega)
    simpa only [auxvLoop, tubeUnpack] using hrec

/-- C9 (counterexample): an auxiliary-vector descriptor of a single
pointer-width word (word size 4, descriptor size 4, one word `5`) is not
ignored: the loop reads it as a key and fails reading the missing value,
instead of completing without error. -/
theorem auxv_trailing_word_counterexample :
    parseAuxv 4 4 [5, 0, 0, 0] = .error .eofError := by decide

/-- C9 (amended): `_parse_auxv` consumes pointer-width key/value pairs and
completes exactly when the descriptor holds an even number of pointer-width
words; with an odd number the final iteration reads the trailing word as a
key and then fails reading the missing value — the trailing word is not
ignored. -/
theorem auxv_word_parity (W k : Nat) (desc : List Nat) (hW : 0 < W) :
    (desc.length = 2 * k * W → (parseAuxv W (2 * k * W) desc).isOk = true) ∧
    (desc.length = (2 * k + 1) * W →
      parseAuxv W ((2 * k + 1) * W) desc = .error .eofError) := by
  have hiter1 : (2 * k * W + 2 * W - 1) / (2 * W) = k := by
    have hc : 2 * k * W = (2 * W) * k := by ring
    have he : 2 * k * W + 2 * W - 1 = (2 * W) * k + (2 * W - 1) := by omega
    rw [he, mul_add_div_eq _ _ _ (by omega) (by omega)]
  have hiter2 : ((2 * k + 1) * W + 2 * W - 1) / (2 * W) = k + 1 := by
    have hc : (2 * k + 1) * W = (2 * W) * k + W := by ring
    have hc2 : (2 * W) * (k + 1) = (2 * W) * k + 2 * W := by ring
    have he : (2 * k + 1) * W + 2 * W - 1 = (2 * W) * (k + 1) + (W - 1) := by omega
    rw [he, mul_add_div_eq _ _ _ (by omega) (by omega)]
  constructor
  · intro h
    unfold parseAuxv
    rw [if_neg (by omega), hiter1]
    exact auxvLoop_even W hW k desc _ h
  · intro h
    unfold parseAuxv
    rw [if_neg (by omega), hiter2]
    exact auxvLoop_odd W hW k desc _ h

/-- C9 (witness): with word size 4, an 8-byte descriptor (two words)
decodes without error, and a 12-byte descriptor (three words) fails with
the missing-value read. -/
theorem auxv_word_parity_witness :
    (parseAuxv 4 (2 * 1 * 4) [1, 0, 0, 0, 2, 0, 0, 0]).isOk = true ∧
    parseAuxv 4 ((2 * 1 + 1) * 4) [1, 0, 0, 0, 2, 0, 0, 0, 3, 0, 0, 0] =
      .error .eofError :=
  ⟨(auxv_word_parity 4 1 [1, 0, 0, 0, 2, 0, 0, 0] (by decide)).1 (by decide),
   (auxv_word_parity 4 1 [1, 0, 0, 0, 2, 0, 0, 0, 3, 0, 0, 0] (by decide)).2
     (by decide)⟩

/-- C8 (confirmed): for every byte range holding well-formed notes — the
parse succeeds and the final cursor lands exactly on the range end — each
yielded note's total encoded size is the fixed 12-byte header size plus
`round_up(name_len, 4)` plus `round_up(desc_len, 4)`, and the total sizes of
all yielded notes sum to the range length (no overlap, no gap). -/
theorem noteStream_total_sizes (stream : List Nat) (offset len : Nat)
    (notes : List Note)
    (h : iterNotes stream offset (offset + len) = some (notes, offset + len)) :
    (∀ n ∈ notes, n.n_size = 12 + roundUp4 n.n_namesz + roundUp4 n.n_descsz) ∧
    (notes.map (·.n_size)).sum = len := by
  obtain ⟨h1, h2, h3⟩ := iterNotesAux_sizes stream _ _ _ _ _ h
  constructor
  · intro n hn
    obtain ⟨hs, _, _, _⟩ := h1 n hn
    rw [hs, roundup_two_eq_roundUp4, roundup_two_eq_roundUp4]
  · omega

/-- C8 (witness): a 20-byte range tiled by exactly one note of name size 4
and descriptor size 4. -/
theorem noteStream_total_sizes_witness :
    (∀ n ∈ c8notes, n.n_size = 12 + roundUp4 n.n_namesz + roundUp4 n.n_descsz) ∧
    (c8notes.map (·.n_size)).sum = 20 :=
  noteStream_total_sizes c8stream 0 20 c8notes (by decide)

/-- C7 (counterexample): against the byte range `[0, 20)`, a note whose
declared descriptor size 16 makes it span `[0, 32)` — past the range end —
is still yielded with its descriptor read from beyond the boundary; no
truncation failure exists in `iter_notes`. -/
theorem truncated_note_counterexample :
    iterNotes c7stream 0 20 =
      some ([⟨0, 4, 16, 1, [67, 79, 82],
        [1, 2, 3, 4, 5, 6, 7, 8, 9, 10, 11, 12, 13, 14, 15, 16], 32⟩], 32) ∧
    20 < 32 := by decide

/-- C7 (amended): `iter_notes` performs no bounds check against the range
end when reading a note's name or descriptor: every yielded note starts
before the range end, but its name and descriptor are read from the
underlying stream at the note's own offsets, unclipped by the range end;
nothing fails when the declared sizes exceed the bytes remaining in the
range. -/
theorem iter_notes_reads_ignore_range_end (stream : List Nat)
    (offset endPos : Nat) (notes : List Note) (fin : Nat)
    (h : iterNotes stream offset endPos = some (notes, fin)) :
    ∀ n ∈ notes,
      n.n_offset < endPos ∧
      n.n_name = (readBytes stream (n.n_offset + 12)
        (roundup n.n_namesz 2)).takeWhile (· ≠ 0) ∧
      n.n_desc = readBytes stream (n.n_offset + 12 + roundup n.n_namesz 2)
        n.n_descsz := by
  intro n hn
  obtain ⟨h1, _, _⟩ := iterNotesAux_sizes stream _ _ _ _ _ h
  obtain ⟨_, ho, hd, hm⟩ := h1 n hn
  exact ⟨ho, hm, hd⟩

/-- C7 (witness): the single note of an 18-byte stream, parsed against the
range `[0, 18)` which its rounded descriptor extends past. -/
theorem iter_notes_reads_ignore_range_end_witness :
    c7wNote.n_offset < 18 ∧
    c7wNote.n_name = (readBytes c7wstream (c7wNote.n_offset + 12)
      (roundup c7wNote.n_namesz 2)).takeWhile (· ≠ 0) ∧
    c7wNote.n_desc = readBytes c7wstream
      (c7wNote.n_offset + 12 + roundup c7wNote.n_namesz 2) c7wNote.n_descsz :=
  iter_notes_reads_ignore_range_end c7wstream 0 18 [c7wNote] 20 (by decide)
    c7wNote (by decide)

theorem mem_of_getElemQ {α : Type} {l : List α} {i : Nat} {x : α}
    (h : l[i]? = some x) : x ∈ l := by
  obtain ⟨hi, he⟩ := List.getElem?_eq_some.mp h
  exact he ▸ List.getElem_mem hi

/-- A membership-aware variant of `foldlM_preserve`. -/
theorem foldlM_preserve_mem {α σ : Type} (f : σ → α → Except PyErr σ)
    (P : σ → Prop) :
    ∀ (l : List α), (∀ s a s', a ∈ l → f s a = .ok s' → P s → P s') →
      ∀ (s s' : σ), l.foldlM f s = .ok s' → P s → P s' := by
  intro l
  induction l with
  | nil =>
    intro _ s s' h hp
    rw [List.foldlM_nil, pure_eq_ok] at h
    cases h
    exact hp
  | cons a l ih =>
    intro hf s s' h hp
    rw [List.foldlM_cons] at h
    cases hstep : f s a with
    | error e => rw [hstep, error_bind] at h; exact Except.noConfusion h
    | ok s1 =>
      rw [hstep, ok_bind] at h
      exact ih (fun s2 b s2' hb => hf s2 b s2' (List.mem_cons_of_mem a hb)) s1 s'
        h (hf s a s1 (List.mem_cons_self a l) hstep hp)

/-- C2 (code bug): when the word following the located envp slot is not a
zero word, the bare `assert` in `_parse_stack` — which sits outside the
`try/except` that guards only the initial sanity check — raises
`AssertionError`; the failure propagates to the caller instead of being
surfaced as a recoverable result with an empty environment. -/
theorem stack_null_check_assert_escapes :
    parseStack 4 c2mem 100 [] = .error .assertionError := by decide

/-- C3 (counterexample): the sanity byte at 99 reads zero, but the next
read of the backward scan (address 97) hits an unbacked address, and the
resulting `ValueError` propagates out of `_parse_stack` — reconstruction
does not abort silently for reads after the first. -/
theorem stack_later_read_failure_escapes :
    u8 c3mem 97 = .error .valueError ∧
    parseStack 4 c3mem 100 [] = .error .valueError := by decide

/-- C3 (amended): only the initial sanity-check read is protected — when
the one-byte read at `at_execfn - 1` fails out of range, `_parse_stack`
returns silently with the environment untouched; a failing read at any
later point propagates (see the counterexample). -/
theorem stack_initial_read_failure_silent (W : Nat) (mem : Mem) (a : Nat)
    (env0 : List (List Nat × Nat)) (h : u8 mem (a - 1) = .error .valueError) :
    parseStack W mem a env0 = .ok env0 := by
  by_cases ha : a = 0
  · unfold parseStack
    rw [if_pos ha]
  · unfold parseStack
    rw [if_neg ha]
    dsimp only
    rw [h]

/-- C3 (witness): an empty memory view, anchor 5. -/
theorem stack_initial_read_failure_silent_witness :
    parseStack 4 [] 5 [([1], 2)] = .ok [([1], 2)] :=
  stack_initial_read_failure_silent 4 [] 5 [([1], 2)] rfl

/-- C5 (code bug): with the string `PATH=/bin` at address 1000 and `PATH`
recorded at 1000 in the environment, `getenv` evaluates to the value bytes
`/bin` — while its own docstring (`getenv(name) -> int`, "return its
address") and the spec promise the address of the value substring (1005).
A missing name does fail with the raised lookup error, as claimed. -/
theorem getenv_returns_value_string_not_address :
    getenv c5mem c5env [80, 65, 84, 72] = .ok [47, 98, 105, 110] ∧
    getenv c5mem c5env [88] = .error .pwnlibError := by decide

/-- C4 (counterexample): a core whose note segment holds two qualifying
process-status notes (type value 1, descriptor size equal to the 4-byte
register layout size) retains the descriptor of the second — the last —
note, not the first. -/
theorem prstatus_first_note_counterexample :
    iterNotes c4stream 0 40 = some ([c4n1, c4n2], 40) ∧
    (c4n1.n_descsz = 4 ∧ c4n1.n_type = 1) ∧
    (c4n2.n_descsz = 4 ∧ c4n2.n_type = 1) ∧
    buildCore 4 4 c4segs c4stream [] = .ok c4state ∧
    c4state.prstatus = some c4n2.n_desc ∧
    c4n2.n_desc ≠ c4n1.n_desc := by decide

/-- C4 (amended): at most one register state is retained — the single
`prstatus` attribute — and when several qualifying notes occur the retained
bytes are those of the *last* qualifying note encountered, every qualifying
note overwriting the attribute in turn. -/
theorem prstatus_last_qualifying_note_wins (W prsz : Nat)
    (segs : List Segment) :
    ∀ (notes : List Note) (st st' : CoreState),
      notes.foldlM (processNote W prsz segs) st = .ok st' →
      st'.prstatus = lastQual prsz notes st.prstatus := by
  intro notes
  induction notes with
  | nil =>
    intro st st' h
    rw [List.foldlM_nil, pure_eq_ok] at h
    cases h
    rfl
  | cons n ns ih =>
    intro st st' h
    rw [List.foldlM_cons] at h
    cases hstep : processNote W prsz segs st n with
    | error e => rw [hstep, error_bind] at h; exact Except.noConfusion h
    | ok st1 =>
      rw [hstep, ok_bind] at h
      obtain ⟨hp, _, _⟩ := processNote_fields W prsz segs st st1 n hstep
      simp only [lastQual]
      rw [ih st1 st' h, hp]

/-- C4 (witness): the fold over the two qualifying notes of the C4 scenario
retains the last one's bytes. -/
theorem prstatus_last_qualifying_note_wins_witness :
    c4wSt.prstatus = lastQual 4 c4wNotes initState.prstatus :=
  prstatus_last_qualifying_note_wins 4 4 [] c4wNotes initState c4wSt (by decide)

/-- C10 (confirmed): every parse of a mapped-file note rebuilds the mapping
list and the start-address index from scratch — after a successful scan the
image's mappings and addresses are exactly the output of `_parse_nt_file`
on the last mapped-file note encountered, every earlier mapped-file note's
result having been discarded. -/
theorem nt_file_last_note_rebuilds (W prsz : Nat) (segs : List Segment) :
    ∀ (notes : List Note) (st st' : CoreState) (n : Note),
      notes.foldlM (processNote W prsz segs) st = .ok st' →
      lastNtFile notes = some n →
      parseNtFile W n.n_desc segs = .ok (st'.mappings, st'.addresses) := by
  intro notes
  induction notes with
  | nil => intro st st' n h hl; exact Option.noConfusion hl
  | cons m ns ih =>
    intro st st' n h hl
    rw [List.foldlM_cons] at h
    cases hstep : processNote W prsz segs st m with
    | error e => rw [hstep, error_bind] at h; exact Except.noConfusion h
    | ok st1 =>
      rw [hstep, ok_bind] at h
      simp only [lastNtFile] at hl
      cases hln : lastNtFile ns with
      | some k =>
        rw [hln] at hl
        cases hl
        exact ih st1 st' n h hln
      | none =>
        rw [hln] at hl
        by_cases hF : m.n_type = NT_FILE
        · rw [if_pos hF] at hl
          cases hl
          obtain ⟨_, _, hfile⟩ := processNote_fields W prsz segs st st1 m hstep
          have hpp := hfile hF
          have hpres : st'.mappings = st1.mappings ∧
              st'.addresses = st1.addresses := by
            refine foldlM_preserve_mem (processNote W prsz segs)
              (fun s => s.mappings = st1.mappings ∧ s.addresses = st1.addresses)
              ns ?_ st1 st' h ⟨rfl, rfl⟩
            intro s b s2 hb hstep2 hs
            obtain ⟨_, hne, _⟩ := processNote_fields W prsz segs s s2 b hstep2
            obtain ⟨hm2, ha2⟩ := hne (lastNtFile_none hln b hb)
            exact ⟨hm2 ▸ hs.1, ha2 ▸ hs.2⟩
          rw [hpres.1, hpres.2]
          exact hpp
        · rw [if_neg hF] at hl
          exact Option.noConfusion hl

/-- C10 (witness): after processing two mapped-file notes, the image's
mappings and addresses equal the parse of the second note alone. -/
theorem nt_file_last_note_rebuilds_witness :
    parseNtFile 4 c10n2.n_desc [] = .ok (c10wSt.mappings, c10wSt.addresses) :=
  nt_file_last_note_rebuilds 4 999 [] c10wNotes initState c10wSt c10n2
    (by decide) (by decide)

/-- C1 (counterexample): a core image built from a mapped-file note listing
the byte range `[0,1)` twice ends with two mappings of equal start address
and overlapping ranges — the list is neither strictly sorted nor pairwise
non-overlapping. -/
theorem mapping_invariant_counterexample :
    buildCore 4 999 c1segs c1stream [] = .ok c1state ∧
    ¬ strictSortedNonOverlap c1state.mappings := by
  constructor
  · decide
  · decide

/-- C1 (amended): for every constructed core image the mapping list is
sorted by start address in non-decreasing order — the guarantee `sorted`
actually provides; strictness and pairwise disjointness are not established
(see the counterexample). -/
theorem core_mappings_sorted_nondecreasing (W prsz : Nat)
    (segs : List Segment) (stream : List Nat) (mem : Mem) (st : CoreState)
    (h : buildCore W prsz segs stream mem = .ok st) :
    st.mappings.Pairwise mappingLe := by
  unfold buildCore at h
  cases hf : segs.foldlM (processSegment W prsz segs stream) initState with
  | error e => rw [hf] at h; exact Except.noConfusion h
  | ok st0 =>
    rw [hf] at h
    dsimp only at h
    have h0 : st0.mappings.Pairwise mappingLe := by
      refine foldlM_preserve (processSegment W prsz segs stream)
        (fun s => s.mappings.Pairwise mappingLe) ?_ segs initState st0 hf
        List.Pairwise.nil
      intro s a s' hstep hp
      unfold processSegment at hstep
      split at hstep
      · cases hn : iterNotes stream a.p_offset (a.p_offset + a.p_filesz) with
        | none => rw [hn] at hstep; exact Except.noConfusion hstep
        | some p =>
          rw [hn] at hstep
          obtain ⟨notes, fin⟩ := p
          dsimp only at hstep
          refine foldlM_preserve (processNote W prsz segs)
            (fun s => s.mappings.Pairwise mappingLe) ?_ notes s s' hstep hp
          intro s2 n s2' hstep2 hp2
          obtain ⟨_, hne, hfile⟩ := processNote_fields W prsz segs s2 s2' n hstep2
          by_cases hF : n.n_type = NT_FILE
          · exact parseNtFile_sorted W n.n_desc segs _ _ (hfile hF)
          · rw [(hne hF).1]; exact hp2
      · cases hstep; exact hp
    exact stackPhase_pairwise W mem st0 st h h0

/-- C1 (witness): a core image whose mapped-file note lists `[16,32)` and
`[0,8)` out of order ends with its mapping list sorted by start address. -/
theorem core_mappings_sorted_nondecreasing_witness :
    c1wSt.mappings.Pairwise mappingLe :=
  core_mappings_sorted_nondecreasing 4 999 c1wsegs c1wstream [] c1wSt
    (by decide)

/-- C6 (counterexample): the derived stack anchor `0x2000` lies strictly
inside the image's only mapping `[0x1000, 0x3000)`, yet the mapping is not
selected (its exclusive end is not the anchor): `self.stack` keeps the bare
address, no mapping is renamed, and `_parse_stack` is never invoked. -/
theorem stack_mapping_containing_anchor_counterexample :
    buildCore 4 999 c6segs c6stream [] = .ok c6state ∧
    c6state.stack = .addr 8192 ∧
    c6state.stackParsed = false ∧
    c6state.env = [] ∧
    c6state.mappings.any
      (fun m => decide (m.start < 8192) && decide (8192 < m.stop)) = true := by
  refine ⟨by decide, by decide, by decide, by decide, by decide⟩

/-- Once `self.stack` holds a `Mapping`, the Python comparison
`mapping.stop == self.stack` is `False` for every remaining mapping, so the
rest of the walk changes nothing. -/
theorem stackLoop_mapIdx (W : Nat) (mem : Mem) :
    ∀ (k i : Nat) (st : CoreState) (j : Nat), st.stack = StackF.mapIdx j →
      stackLoop W mem k i st = .ok st := by
  intro k
  induction k with
  | zero => intro i st j hstk; simp only [stackLoop]
  | succ k ih =>
    intro i st j hstk
    simp only [stackLoop]
    cases hm : st.mappings[i]? with
    | none => rfl
    | some m =>
      dsimp only
      have hsq : stackEq m.stop st.stack = false := by rw [hstk]; rfl
      rw [hsq]
      exact ih (i + 1) st j hstk

/-- The walk over the mappings from index `i0`: when index `i` holds the
first mapping (from `i0` on) whose exclusive end equals the anchor, the
mapping is renamed `'[stack]'`, recorded in `self.stack`, `_parse_stack` is
invoked on the current state, and its outcome decides the result. -/
theorem stackLoop_hits (W : Nat) (mem : Mem) (a : Nat) :
    ∀ (k i0 : Nat) (st : CoreState) (i : Nat) (m : Mapping),
      st.stack = StackF.addr a →
      st.mappings[i]? = some m → m.stop = a →
      (∀ mj ∈ st.mappings.take i, mj.stop ≠ a) →
      i0 ≤ i → i < i0 + k →
      stackLoop W mem k i0 st =
        match parseStack W mem (st.at_execfn.getD 0) st.env with
        | .error e => .error e
        | .ok env' => .ok { st with
            mappings := st.mappings.set i { m with name := some stackName },
            stack := StackF.mapIdx i, env := env', stackParsed := true } := by
  intro k
  induction k with
  | zero =>
    intro i0 st i m _ _ _ _ h5 h6
    omega
  | succ k ih =>
    intro i0 st i m hstk hm hstop hfirst h5 h6
    simp only [stackLoop]
    by_cases hi : i0 = i
    · subst hi
      rw [hm]
      dsimp only
      have hsq : stackEq m.stop st.stack = true := by
        rw [hstk, hstop]
        simp [stackEq]
      rw [hsq, if_pos rfl]
      cases hps : parseStack W mem (st.at_execfn.getD 0) st.env with
      | error e => rfl
      | ok env' => exact stackLoop_mapIdx W mem k (i0 + 1) _ i0 rfl
    · have hlt : i0 < i := by omega
      have hilen : i < st.mappings.length := (List.getElem?_eq_some.mp hm).1
      have hi0len : i0 < st.mappings.length := by omega
      have hm0 : st.mappings[i0]? = some st.mappings[i0] :=
        List.getElem?_eq_getElem hi0len
      rw [hm0]
      dsimp only
      have hmem : st.mappings[i0] ∈ st.mappings.take i := by
        refine mem_of_getElemQ (i := i0) ?_
        rw [List.getElem?_take_of_lt hlt]
        exact hm0
      have hsq : stackEq (st.mappings[i0]).stop st.stack = false := by
        rw [hstk]
        simp only [stackEq, beq_eq_false_iff_ne]
        exact hfirst _ hmem
      rw [hsq]
      exact ih (i0 + 1) st i m hstk hm hstop hfirst (by omega) (by omega)

/-- C6 (amended): the stack-mapping search selects a mapping by comparing
its exclusive end with the anchor.  When no mapping's `stop` equals the
anchor — even a mapping containing it — the walk changes nothing and the
reconstructor is never invoked; when some mapping's `stop` equals the
(nonzero) anchor, the first such mapping is renamed `'[stack]'`, recorded
in `self.stack`, and `_parse_stack` is invoked on the image, its outcome —
exception or reconstructed environment — deciding the construction's
result. -/
theorem stack_match_requires_stop_eq_anchor (W : Nat) (mem : Mem)
    (st : CoreState) (a : Nat) (hstk : st.stack = StackF.addr a) :
    ((∀ m ∈ st.mappings, m.stop ≠ a) → stackPhase W mem st = .ok st) ∧
    (∀ (i : Nat) (m : Mapping), st.mappings[i]? = some m → m.stop = a →
      (∀ mj ∈ st.mappings.take i, mj.stop ≠ a) → a ≠ 0 →
      stackPhase W mem st =
        match parseStack W mem (st.at_execfn.getD 0) st.env with
        | .error e => .error e
        | .ok env' => .ok { st with
            mappings := st.mappings.set i { m with name := some stackName },
            stack := StackF.mapIdx i, env := env', stackParsed := true }) := by
  constructor
  · intro hnone
    have hloop : ∀ (k i : Nat), stackLoop W mem k i st = .ok st := by
      intro k
      induction k with
      | zero => intro i; simp only [stackLoop]
      | succ k ih =>
        intro i
        simp only [stackLoop]
        cases hm : st.mappings[i]? with
        | none => rfl
        | some m =>
          dsimp only
          cases hsq : stackEq m.stop st.stack with
          | false => exact ih (i + 1)
          | true =>
            exfalso
            rw [hstk] at hsq
            simp only [stackEq, beq_iff_eq] at hsq
            exact hnone m (mem_of_getElemQ hm) hsq
    unfold stackPhase
    rw [hstk]
    dsimp only
    split
    · exact hloop _ 0
    · rfl
  · intro i m hm hstop hfirst ha
    have hilen : i < st.mappings.length := (List.getElem?_eq_some.mp hm).1
    have hne : st.mappings ≠ [] := by
      intro hc
      rw [hc, List.getElem?_nil] at hm
      exact Option.noConfusion hm
    unfold stackPhase
    rw [hstk]
    dsimp only
    rw [if_pos ⟨ha, hne⟩]
    exact stackLoop_hits W mem a st.mappings.length 0 st i m hstk hm hstop
      hfirst (Nat.zero_le i) (by omega)

/-- C6 (witness): anchor 9 over mappings `[0,5)` and `[5,9)`: the second
mapping (first with end equal to the anchor) is renamed `'[stack]'`,
recorded by reference, and the reconstructor is invoked — here taking its
silent path on an empty memory view, leaving the environment empty with the
selection recorded. -/
theorem stack_match_requires_stop_eq_anchor_witness :
    stackPhase 4 [] c6wSt = .ok { c6wSt with
      mappings := c6wSt.mappings.set 1
        { mkMapping none 5 9 0 with name := some stackName },
      stack := StackF.mapIdx 1, env := c6wSt.env, stackParsed := true } := by
  rw [(stack_match_requires_stop_eq_anchor 4 [] c6wSt 9 rfl).2 1
    (mkMapping none 5 9 0) (by decide) (by decide) (by decide) (by decide)]
  rfl

end Corefile
